import Mathlib

/-!
# Verification of `go-dep-visual` (src/main.go)

A shallow embedding of the dependency-graph tool in `src/main.go`:

* `convertHTTPtoSSH` — the URL rewriting helper (src/main.go:190-199);
* `getPackageName` — the package-name deriver (src/main.go:201-205),
  together with models of Go's `path/filepath` `Clean`/`Join`/`Dir`/`Ext`
  (Unix semantics, empty volume name);
* the module-identity walk (src/main.go:73-105) as `resolveModule`;
* the graph-building walk (src/main.go:109-151) as `buildRaw`/`finalPass`,
  with the Go map `map[string][]string` embedded as an association list
  `List (String × List String)` (map iteration order is irrelevant to the
  membership-level properties proved here);
* the Graphviz rendering loop (src/main.go:153-178) as `renderGraph`
  (the `%q` quoting applied uniformly to every node and edge label is
  dropped, being an injective relabelling).

Go library functions used by the program (`strings.Replace`,
`strings.HasPrefix`, `filepath.Clean`, `slices.Sort`, `slices.Compact`, …)
are embedded by their documented semantics.  `slices.Compact` mutates the
backing array in place and returns a shortened slice; src/main.go:150
discards that return value, so the slice stored in the map keeps its
original length: the array after `Compact` is the deduplicated prefix
followed by the untouched tail of the sorted array (Go 1.21 semantics of
`slices`, the release that introduced the stdlib `slices` package the file
imports).  `slices.Sort` is embedded as an insertion sort over the same
lexicographic order; only order and multiset content matter, never the
sorting algorithm.
-/

set_option autoImplicit false

namespace GoDepVisual

/-! ## Strings: `strings.HasPrefix` and `strings.Replace` (n = 1) -/

/-- `strings.HasPrefix s pre` (src uses it at main.go:191). -/
def goHasPrefix (s pre : String) : Bool :=
  pre.data.isPrefixOf s.data

/-- `strings.Replace s old new 1` on character lists: replace the first
occurrence of `old` in `s` by `new`; if `old` is empty, Go inserts `new`
once, before the first character; if `old` does not occur, `s` is
unchanged. -/
def goReplace1 : List Char → List Char → List Char → List Char
  | s, [], new => new ++ s
  | [], _ :: _, _ => []
  | c :: rest, o :: os, new =>
    if (o :: os).isPrefixOf (c :: rest) then new ++ (c :: rest).drop (o :: os).length
    else c :: goReplace1 rest (o :: os) new

/-- `convertHTTPtoSSH` (src/main.go:190-199). -/
def convertHTTPtoSSH (httpURL : String) : Except String String :=
  if goHasPrefix httpURL "https://" then
    let sshURL := goReplace1 httpURL.data "https://".data "git@".data
    Except.ok ⟨goReplace1 sshURL "/".data ":".data⟩
  else
    Except.error "invalid URL format"

/-- When `old` is a (non-empty) prefix of `s`, the first occurrence replaced
by `goReplace1` is the prefix itself. -/
theorem goReplace1_head_match (s old new : List Char) (c : Char) (os : List Char)
    (ho : old = c :: os) (h : old.isPrefixOf s = true) :
    goReplace1 s old new = new ++ s.drop old.length := by
  subst ho
  cases s with
  | nil => simp [List.isPrefixOf] at h
  | cons a rest => simp [goReplace1, h]

/-- `goReplace1` walks past a head character that cannot start a match. -/
theorem goReplace1_cons_of_ne (a : Char) (s : List Char) (o : Char) (os new : List Char)
    (h : o ≠ a) :
    goReplace1 (a :: s) (o :: os) new = a :: goReplace1 s (o :: os) new := by
  have hpre : (o :: os).isPrefixOf (a :: s) = false := by
    simp [List.isPrefixOf]
    intro hoa
    exact absurd hoa h
  simp [goReplace1, hpre]

/-- Replacing the first `/` in `"git@" ++ rest` keeps the `git@` prefix:
none of its characters is a `/`. -/
theorem goReplace1_slash_gitAt (rest : List Char) :
    goReplace1 ("git@".data ++ rest) "/".data ":".data =
      "git@".data ++ goReplace1 rest "/".data ":".data := by
  show goReplace1 ('g' :: 'i' :: 't' :: '@' :: rest) ['/'] [':'] = _
  rw [goReplace1_cons_of_ne _ _ _ _ _ (by decide)]
  rw [goReplace1_cons_of_ne _ _ _ _ _ (by decide)]
  rw [goReplace1_cons_of_ne _ _ _ _ _ (by decide)]
  rw [goReplace1_cons_of_ne _ _ _ _ _ (by decide)]
  rfl

/-! ## `main` up to the clone call (src/main.go:27-66)

`main` checks for Graphviz, checks the argument count, converts the URL,
reads and parses the SSH key, and only then calls `git.Clone` — the first
network access of the run.  Every earlier failure is `log.Fatal*`. -/

/-- Outcome of `main` before any network access: one of the `log.Fatal`
exits, or the call to `git.Clone` with the converted URL
(src/main.go:58-63), which is the first network access. -/
inductive PreClone where
  | fatalNoGraphviz : PreClone
  | fatalNoArg : PreClone
  | fatalBadURL (msg : String) : PreClone
  | fatalNoKey : PreClone
  | clone (sshURL : String) : PreClone
deriving DecidableEq

/-- The control flow of `main` from src/main.go:28 to the `git.Clone`
call at src/main.go:58, with the environment abstracted: `dotInstalled`
is whether `dot -V` succeeds, `sshKeyOk` whether `~/.ssh/id_rsa` can be
opened, read and parsed. -/
def mainPreClone (dotInstalled : Bool) (args : List String) (sshKeyOk : Bool) : PreClone :=
  if dotInstalled = false then .fatalNoGraphviz
  else if args.length < 2 then .fatalNoArg
  else
    match convertHTTPtoSSH (args.getD 1 "") with
    | .error e => .fatalBadURL e
    | .ok url => if sshKeyOk = false then .fatalNoKey else .clone url

/-- C10: on an `https://`-prefixed input, `convertHTTPtoSSH` replaces the
prefix by `git@` and the first remaining `/` by `:`; on any other input it
returns an error and no URL.  Includes the concrete instance
`https://github.com/user/repo ↦ git@github.com:user/repo`. -/
theorem convertHTTPtoSSH_correct (s : String) :
    (goHasPrefix s "https://" = true →
      convertHTTPtoSSH s =
        Except.ok ⟨"git@".data ++ goReplace1 (s.data.drop 8) "/".data ":".data⟩) ∧
    (goHasPrefix s "https://" = false →
      convertHTTPtoSSH s = Except.error "invalid URL format") ∧
    convertHTTPtoSSH "https://github.com/user/repo" =
      Except.ok "git@github.com:user/repo" := by
  refine ⟨?_, ?_, by rfl⟩
  · intro h
    have hpre : ("https://".data).isPrefixOf s.data = true := h
    have h1 : goReplace1 s.data "https://".data "git@".data
        = "git@".data ++ s.data.drop 8 :=
      goReplace1_head_match s.data "https://".data "git@".data
        'h' "ttps://".data (by decide) hpre
    simp [convertHTTPtoSSH, h, h1]
    exact congrArg String.mk (goReplace1_slash_gitAt (s.data.drop 8))
  · intro h
    simp [convertHTTPtoSSH, h]

/-- Witness for `convertHTTPtoSSH_correct` at concrete inputs. -/
theorem convertHTTPtoSSH_correct_witness :
    convertHTTPtoSSH "https://github.com/u/r" =
        Except.ok ⟨"git@".data ++ goReplace1 ("github.com/u/r".data) "/".data ":".data⟩ ∧
    convertHTTPtoSSH "git@github.com:u/r" = Except.error "invalid URL format" :=
  ⟨(convertHTTPtoSSH_correct "https://github.com/u/r").1 (by decide),
   ((convertHTTPtoSSH_correct "git@github.com:u/r").2).1 (by decide)⟩

/-- C6: a location argument that does not begin with `https://` is rejected
(`log.Fatalf`, src/main.go:39) before the run ever reaches the `git.Clone`
call — the only network access — whatever the rest of the environment. -/
theorem badURL_rejected_before_clone (dotInstalled sshKeyOk : Bool) (args : List String)
    (h : goHasPrefix (args.getD 1 "") "https://" = false) :
    ∀ url, mainPreClone dotInstalled args sshKeyOk ≠ PreClone.clone url := by
  intro url
  unfold mainPreClone
  have hconv : convertHTTPtoSSH (args.getD 1 "") = Except.error "invalid URL format" := by
    unfold convertHTTPtoSSH
    rw [h]
    simp
  rw [hconv]
  cases dotInstalled <;> by_cases hlen : args.length < 2 <;> simp [hlen]

/-- Witness for `badURL_rejected_before_clone` at a concrete argument list. -/
theorem badURL_rejected_before_clone_witness :
    goHasPrefix (["prog", "git@github.com:u/r"].getD 1 "") "https://" = false ∧
    ∀ url, mainPreClone true ["prog", "git@github.com:u/r"] true ≠ PreClone.clone url :=
  ⟨by decide, badURL_rejected_before_clone true true ["prog", "git@github.com:u/r"] (by decide)⟩

/-! ## `path/filepath`: `Clean`, `Join`, `Dir` (Unix semantics)

`filepath.Clean` is embedded segment-wise: split on `/`, process segments
left to right against a stack (`.` and empty segments are dropped; `..`
pops a poppable segment, is dropped at the root, and is kept when nothing
can be popped in a relative path), then reassemble.  This is the documented
lexical processing of Go's `Clean`. -/

/-- Split a character list on `/` into segments (Go's `Clean` scans
between separators). -/
def splitSlash : List Char → List (List Char)
  | [] => [[]]
  | c :: rest =>
    let r := splitSlash rest
    if c = '/' then [] :: r
    else
      match r with
      | [] => [[c]]
      | seg :: segs => (c :: seg) :: segs

/-- Process `Clean` segments against a stack held in reverse
(`acc.head?` is the last segment written so far). -/
def cleanStack (rooted : Bool) : List (List Char) → List (List Char) → List (List Char)
  | acc, [] => acc
  | acc, seg :: rest =>
    if seg = [] ∨ seg = ['.'] then cleanStack rooted acc rest
    else if seg = ['.', '.'] then
      match acc with
      | top :: accRest =>
        if top = ['.', '.'] then cleanStack rooted (['.', '.'] :: acc) rest
        else cleanStack rooted accRest rest
      | [] => if rooted then cleanStack rooted [] rest else cleanStack rooted [['.', '.']] rest
    else cleanStack rooted (seg :: acc) rest

/-- Reassemble segments with `/` separators. -/
def joinSegs : List (List Char) → List Char
  | [] => []
  | [s] => s
  | s :: rest => s ++ '/' :: joinSegs rest

/-- `filepath.Clean` on Unix. -/
def goClean (p : String) : String :=
  if p.data = [] then "."
  else
    let rooted := p.data.head? = some '/'
    let body := joinSegs (cleanStack rooted [] (splitSlash p.data)).reverse
    if body = [] then (if rooted then "/" else ".")
    else (if rooted then ⟨'/' :: body⟩ else ⟨body⟩)

/-- `filepath.Join a b` on Unix: skip leading empty elements, join the rest
with `/`, and `Clean` the result. -/
def goJoin (a b : String) : String :=
  if a ≠ "" then goClean ⟨a.data ++ '/' :: b.data⟩
  else if b ≠ "" then goClean b
  else ""

/-- `filepath.Dir p` on Unix (empty volume name): `Clean` of the prefix of
`p` up to and including the last `/` (the empty prefix when `p` has no
`/`, so `Clean "" = "."`). -/
def goDir (p : String) : String :=
  goClean ⟨(p.data.reverse.dropWhile (fun c => c ≠ '/')).reverse⟩

/-- `getPackageName` (src/main.go:201-205): join the module path with the
directory of the relative file path. -/
def getPackageName (modulePath relativeFilePath : String) : String :=
  goJoin modulePath (goDir relativeFilePath)

/-- C3: `getPackageName` is the path-join of the module root with the
directory component of the file's relative path; at the spec's concrete
inputs it gives `example.com/mod/pkg` for `pkg/file.go` and
`example.com/mod` itself for the root-level `file.go`. -/
theorem getPackageName_correct :
    (∀ M p, getPackageName M p = goJoin M (goDir p)) ∧
    getPackageName "example.com/mod" "pkg/file.go" = "example.com/mod/pkg" ∧
    getPackageName "example.com/mod" "file.go" = "example.com/mod" :=
  ⟨fun _ _ => rfl, by decide, by decide⟩

/-- C9: `getPackageName` is deterministic — equal inputs give equal
outputs.  (Purity is inherent to the embedding: src/main.go:201-205 reads
and writes no state, so it embeds as a plain function of its two
arguments.) -/
theorem getPackageName_deterministic (M₁ p₁ M₂ p₂ : String)
    (hM : M₁ = M₂) (hp : p₁ = p₂) :
    getPackageName M₁ p₁ = getPackageName M₂ p₂ := by
  rw [hM, hp]

/-- Witness for `getPackageName_deterministic` at concrete inputs. -/
theorem getPackageName_deterministic_witness :
    getPackageName "example.com/mod" "pkg/file.go"
      = getPackageName "example.com/mod" "pkg/file.go" :=
  getPackageName_deterministic "example.com/mod" "pkg/file.go"
    "example.com/mod" "pkg/file.go" rfl rfl

/-! ## The dependency graph (src/main.go:107-151)

`dependancyGraph : map[string][]string` is embedded as an association
list with unique keys; Go-map lookup, key test and `g[k] = append(g[k], d)`
become `lookupG`, `containsKey` and `appendDep`.  Map iteration order is
arbitrary in Go, so only order-independent (membership-level) facts are
proved about whole-map passes. -/

/-- The Go map `map[string][]string`, as an association list. -/
abbrev Graph := List (String × List String)

/-- Go map lookup `g[k]`. -/
def lookupG : Graph → String → Option (List String)
  | [], _ => none
  | (k, v) :: rest, key => if k = key then some v else lookupG rest key

/-- Go's two-valued lookup `_, ok := g[k]`. -/
def containsKey (g : Graph) (k : String) : Bool :=
  (lookupG g k).isSome

/-- `if _, ok := g[k]; !ok { g[k] = make([]string, 0) }`
(src/main.go:123-125 and 134-136). -/
def ensure (g : Graph) (k : String) : Graph :=
  if containsKey g k then g else g ++ [(k, [])]

/-- `g[name] = append(g[name], dep)` (src/main.go:137); a Go map
assignment creates the key when absent. -/
def appendDep : Graph → String → String → Graph
  | [], name, dep => [(name, [dep])]
  | (k, v) :: rest, name, dep =>
    if k = name then (k, v ++ [dep]) :: rest else (k, v) :: appendDep rest name dep

/-- One iteration of the import loop (src/main.go:132-138): ensure the
dependency exists as a key, then append it to the owning package's list. -/
def processImport (name : String) (g : Graph) (dep : String) : Graph :=
  appendDep (ensure g dep) name dep

/-- Processing one source file's (package, imports) contribution
(src/main.go:121-138): ensure the package key, then run the import loop. -/
def processFile (g : Graph) (f : String × List String) : Graph :=
  f.2.foldl (processImport f.1) (ensure g f.1)

/-- The Graph Builder over a stream of (package, imports) pairs: the
graph accumulated by the walk of src/main.go:109-142. -/
def buildRaw (files : List (String × List String)) : Graph :=
  files.foldl processFile []

/-- Go's string order (byte-wise lexicographic; UTF-8 byte order equals
code-point order). -/
def strLe : List Char → List Char → Bool
  | [], _ => true
  | _ :: _, [] => false
  | c :: as, d :: bs =>
    if c.val < d.val then true
    else if d.val < c.val then false
    else strLe as bs

/-- Insertion step of the sort modelling `slices.Sort` (src/main.go:149);
only the resulting order matters, not the algorithm. -/
def insertSorted (x : String) : List String → List String
  | [] => [x]
  | y :: rest => if strLe x.data y.data then x :: y :: rest else y :: insertSorted x rest

/-- `slices.Sort deps` (src/main.go:149). -/
def sortStrings (l : List String) : List String :=
  l.foldr insertSorted []

/-- The deduplicated prefix that `slices.Compact` writes into the front of
the array (keep the first element of each run of equal neighbours). -/
def compactAfter : String → List String → List String
  | _, [] => []
  | prev, b :: rest => if b = prev then compactAfter prev rest else b :: compactAfter b rest

/-- `slices.Compact l` as a value: the deduplicated list. -/
def compactPrefix : List String → List String
  | [] => []
  | a :: rest => a :: compactAfter a rest

/-- The net effect of `slices.Sort(deps); slices.Compact(deps)`
(src/main.go:148-151) on the slice stored in the map.  `Compact` returns a
shortened slice, but that return value is discarded, so the stored slice
keeps its original length: its content is the array after `Compact` —
the deduplicated prefix followed by the untouched tail of the sorted
array (Go 1.21 `slices` semantics). -/
def goSortCompact (l : List String) : List String :=
  let s := sortStrings l
  let c := compactPrefix s
  c ++ s.drop c.length

/-- The final pass over the map (src/main.go:148-151). -/
def finalPass (g : Graph) : Graph :=
  g.map (fun e => (e.1, goSortCompact e.2))

/-- The final Dependency Graph: build, then sort-and-compact every
dependency list. -/
def buildGraph (files : List (String × List String)) : Graph :=
  finalPass (buildRaw files)

/-- A name is mentioned by the stream when some file owns it or imports
it. -/
def mentioned (files : List (String × List String)) (k : String) : Prop :=
  ∃ f ∈ files, k = f.1 ∨ k ∈ f.2

instance (files : List (String × List String)) (k : String) :
    Decidable (mentioned files k) := by
  unfold mentioned; infer_instance

/-- All imports the stream ascribes to package `P`, in stream order. -/
def depsOf (files : List (String × List String)) (P : String) : List String :=
  files.foldr (fun f acc => (if f.1 = P then f.2 else []) ++ acc) []

/-! ### Lookup lemmas -/

theorem lookupG_append (g h : Graph) (k : String) :
    lookupG (g ++ h) k =
      match lookupG g k with
      | some v => some v
      | none => lookupG h k := by
  induction g with
  | nil => simp [lookupG]
  | cons e rest ih =>
    obtain ⟨a, v⟩ := e
    by_cases hak : a = k <;> simp [lookupG, hak, ih]

theorem lookupG_ensure (g : Graph) (k k' : String) :
    lookupG (ensure g k) k' =
      if k' = k then some ((lookupG g k).getD []) else lookupG g k' := by
  unfold ensure containsKey
  by_cases hk : (lookupG g k).isSome
  · rw [if_pos hk]
    by_cases hk' : k' = k
    · subst hk'
      obtain ⟨v, hv⟩ := Option.isSome_iff_exists.mp hk
      simp [hv]
    · simp [hk']
  · rw [if_neg hk]
    rw [lookupG_append]
    have hnone : lookupG g k = none := Option.not_isSome_iff_eq_none.mp hk
    by_cases hk' : k' = k
    · subst hk'
      simp [hnone, lookupG]
    · cases hlk : lookupG g k' with
      | some v => simp [hk', hlk]
      | none =>
        have hkk : ¬k = k' := fun h => hk' h.symm
        simp [hk', hlk, lookupG, hkk]

theorem lookupG_appendDep (g : Graph) (name dep k : String) :
    lookupG (appendDep g name dep) k =
      if k = name then some ((lookupG g name).getD [] ++ [dep]) else lookupG g k := by
  induction g with
  | nil =>
    by_cases hk : k = name
    · subst hk; simp [appendDep, lookupG]
    · have hnk : ¬name = k := fun h => hk h.symm
      simp [appendDep, lookupG, hk, hnk]
  | cons e rest ih =>
    obtain ⟨a, v⟩ := e
    by_cases han : a = name
    · subst han
      by_cases hk : k = a
      · subst hk; simp [appendDep, lookupG]
      · have hak : ¬a = k := fun h => hk h.symm
        simp [appendDep, lookupG, hk, hak]
    · by_cases hk : k = a
      · subst hk
        have hkn : k ≠ name := fun h => han (h ▸ rfl)
        simp [appendDep, lookupG, han, hkn]
      · have hak : ¬a = k := fun h => hk h.symm
        simp [appendDep, lookupG, han, hk, hak, ih]

/-! ### Characterizing one file's contribution -/

theorem lookupG_importLoop (name : String) (imports : List String) (g : Graph) (v : List String)
    (hv : lookupG g name = some v) (k : String) :
    lookupG (imports.foldl (processImport name) g) k =
      if k = name then some (v ++ imports)
      else if k ∈ imports then some ((lookupG g k).getD [])
      else lookupG g k := by
  induction imports generalizing g v with
  | nil =>
    by_cases hk : k = name
    · subst hk; simp [hv]
    · simp [hk]
  | cons d rest ih =>
    have hg' : lookupG (processImport name g d) name = some (v ++ [d]) := by
      unfold processImport
      rw [lookupG_appendDep, if_pos rfl, lookupG_ensure]
      by_cases hnd : name = d
      · subst hnd; simp [hv]
      · simp [hnd, hv]
    rw [List.foldl_cons, ih (processImport name g d) (v ++ [d]) hg']
    by_cases hk : k = name
    · subst hk; simp
    · have hlk : lookupG (processImport name g d) k =
          if k = d then some ((lookupG g k).getD []) else lookupG g k := by
        unfold processImport
        rw [lookupG_appendDep, if_neg hk, lookupG_ensure]
        by_cases hkd : k = d
        · subst hkd; simp
        · simp [hkd]
      by_cases hkd : k = d
      · subst hkd
        simp [hk, hlk]
      · by_cases hkr : k ∈ rest
        · simp [hk, hkd, hkr, hlk]
        · have : ¬k ∈ d :: rest := by simp [hkd, hkr]
          simp [hk, hkd, hkr, hlk, this]

theorem lookupG_processFile (g : Graph) (f : String × List String) (k : String) :
    lookupG (processFile g f) k =
      if k = f.1 then some ((lookupG g f.1).getD [] ++ f.2)
      else if k ∈ f.2 then some ((lookupG g k).getD [])
      else lookupG g k := by
  obtain ⟨name, imports⟩ := f
  have hens : lookupG (ensure g name) name = some ((lookupG g name).getD []) := by
    rw [lookupG_ensure, if_pos rfl]
  unfold processFile
  rw [lookupG_importLoop name imports (ensure g name) _ hens k]
  by_cases hk : k = name
  · subst hk; simp
  · simp [lookupG_ensure, hk]

/-! ### Characterizing the whole build -/

theorem depsOf_cons (f : String × List String) (fs : List (String × List String)) (P : String) :
    depsOf (f :: fs) P = (if f.1 = P then f.2 else []) ++ depsOf fs P := rfl

theorem mentioned_cons (f : String × List String) (fs : List (String × List String)) (k : String) :
    mentioned (f :: fs) k ↔ (k = f.1 ∨ k ∈ f.2) ∨ mentioned fs k := by
  simp [mentioned]

theorem lookupG_buildAux (files : List (String × List String)) (g : Graph) (k : String) :
    lookupG (files.foldl processFile g) k =
      match lookupG g k with
      | some v => some (v ++ depsOf files k)
      | none => if mentioned files k then some (depsOf files k) else none := by
  induction files generalizing g with
  | nil =>
    cases h : lookupG g k <;> simp [depsOf, mentioned, h]
  | cons f fs ih =>
    rw [List.foldl_cons, ih (processFile g f), lookupG_processFile]
    by_cases hk1 : k = f.1
    · subst hk1
      cases hg : lookupG g f.1 <;>
        simp [hg, depsOf_cons, mentioned_cons]
    · have hfk : ¬f.1 = k := fun h => hk1 h.symm
      by_cases hk2 : k ∈ f.2
      · cases hg : lookupG g k <;>
          simp [hg, hk1, hk2, hfk, depsOf_cons, mentioned_cons]
      · cases hg : lookupG g k <;>
          simp [hg, hk1, hk2, hfk, depsOf_cons, mentioned_cons]

theorem lookupG_buildRaw (files : List (String × List String)) (k : String) :
    lookupG (buildRaw files) k =
      if mentioned files k then some (depsOf files k) else none := by
  unfold buildRaw
  rw [lookupG_buildAux]
  simp [lookupG]

theorem lookupG_finalPass (g : Graph) (k : String) :
    lookupG (finalPass g) k = (lookupG g k).map goSortCompact := by
  induction g with
  | nil => simp [finalPass, lookupG]
  | cons e rest ih =>
    obtain ⟨a, v⟩ := e
    by_cases hak : a = k
    · simp [finalPass, lookupG, hak]
    · simp [finalPass, lookupG, hak]
      simpa [finalPass] using ih

theorem lookupG_buildGraph (files : List (String × List String)) (k : String) :
    lookupG (buildGraph files) k =
      if mentioned files k then some (goSortCompact (depsOf files k)) else none := by
  unfold buildGraph
  rw [lookupG_finalPass, lookupG_buildRaw]
  by_cases h : mentioned files k <;> simp [h]

theorem containsKey_buildGraph (files : List (String × List String)) (k : String) :
    containsKey (buildGraph files) k = true ↔ mentioned files k := by
  unfold containsKey
  rw [lookupG_buildGraph]
  by_cases h : mentioned files k <;> simp [h]

/-! ### Membership through sort and compact -/

theorem mem_insertSorted (x y : String) (l : List String) :
    y ∈ insertSorted x l ↔ y = x ∨ y ∈ l := by
  induction l with
  | nil => simp [insertSorted]
  | cons a rest ih =>
    by_cases h : strLe x.data a.data
    · simp [insertSorted, h]
    · simp [insertSorted, h, ih]
      tauto

theorem mem_sortStrings (x : String) (l : List String) :
    x ∈ sortStrings l ↔ x ∈ l := by
  induction l with
  | nil => simp [sortStrings]
  | cons a rest ih =>
    simp [sortStrings, List.foldr_cons, mem_insertSorted]
    rw [show rest.foldr insertSorted [] = sortStrings rest from rfl, ih]

theorem mem_compactAfter (x prev : String) (l : List String) :
    x ∈ compactAfter prev l → x ∈ l := by
  induction l generalizing prev with
  | nil => simp [compactAfter]
  | cons b rest ih =>
    by_cases h : b = prev
    · simp [compactAfter, h]
      intro hx
      exact Or.inr (ih prev (h ▸ hx))
    · simp [compactAfter, h]
      rintro (hx | hx)
      · exact Or.inl hx
      · exact Or.inr (ih b hx)

theorem mem_of_mem_compactAfter (x prev : String) (l : List String) :
    x ∈ l → x = prev ∨ x ∈ compactAfter prev l := by
  induction l generalizing prev with
  | nil => simp
  | cons b rest ih =>
    intro hx
    by_cases h : b = prev
    · subst h
      rcases List.mem_cons.mp hx with hb | hr
      · exact Or.inl hb
      · simpa [compactAfter] using ih b hr
    · simp only [compactAfter, if_neg h]
      rcases List.mem_cons.mp hx with hb | hr
      · exact Or.inr (by simp [hb])
      · rcases ih b hr with hxb | hxc
        · exact Or.inr (by simp [hxb])
        · exact Or.inr (by simp [hxc])

theorem mem_compactPrefix (x : String) (l : List String) :
    x ∈ compactPrefix l ↔ x ∈ l := by
  cases l with
  | nil => simp [compactPrefix]
  | cons a rest =>
    simp only [compactPrefix, List.mem_cons]
    constructor
    · rintro (hx | hx)
      · exact Or.inl hx
      · exact Or.inr (mem_compactAfter x a rest hx)
    · rintro (hx | hx)
      · exact Or.inl hx
      · rcases mem_of_mem_compactAfter x a rest hx with h | h
        · exact Or.inl h
        · exact Or.inr h

theorem mem_goSortCompact (x : String) (l : List String) :
    x ∈ goSortCompact l ↔ x ∈ l := by
  unfold goSortCompact
  simp only [List.mem_append]
  constructor
  · rintro (hx | hx)
    · exact (mem_sortStrings x l).mp ((mem_compactPrefix x (sortStrings l)).mp hx)
    · exact (mem_sortStrings x l).mp (List.drop_subset _ _ hx)
  · intro hx
    exact Or.inl ((mem_compactPrefix x (sortStrings l)).mpr ((mem_sortStrings x l).mpr hx))

/-! ### Membership in `depsOf` -/

theorem mem_depsOf (files : List (String × List String)) (P d : String) :
    d ∈ depsOf files P ↔ ∃ f ∈ files, f.1 = P ∧ d ∈ f.2 := by
  induction files with
  | nil => simp [depsOf]
  | cons f fs ih =>
    rw [depsOf_cons]
    by_cases h : f.1 = P
    · simp [h, ih]
    · simp [h, ih]

theorem depsOf_append (s t : List (String × List String)) (P : String) :
    depsOf (s ++ t) P = depsOf s P ++ depsOf t P := by
  induction s with
  | nil => simp [depsOf]
  | cons f fs ih =>
    simp only [List.cons_append, depsOf_cons, ih, List.append_assoc]

theorem mentioned_append (s t : List (String × List String)) (k : String) :
    mentioned (s ++ t) k ↔ mentioned s k ∨ mentioned t k := by
  unfold mentioned
  constructor
  · rintro ⟨f, hf, hk⟩
    rcases List.mem_append.mp hf with h | h
    · exact Or.inl ⟨f, h, hk⟩
    · exact Or.inr ⟨f, h, hk⟩
  · rintro (⟨f, hf, hk⟩ | ⟨f, hf, hk⟩)
    · exact ⟨f, List.mem_append.mpr (Or.inl hf), hk⟩
    · exact ⟨f, List.mem_append.mpr (Or.inr hf), hk⟩

/-! ## The rendering loop (src/main.go:153-178)

One node per unseen name, one `AddEdge(dependancy, module)` call per entry
of each dependency list.  The `%q` quoting applied uniformly to every
label is an injective relabelling and is dropped. -/

/-- The body of the rendering loop for one map entry `(module, deps)`:
add the module node if unseen, then for each recorded dependency add its
node if unseen and add the edge dependency → module. -/
def renderEntry (acc : List String × List (String × String)) (e : String × List String) :
    List String × List (String × String) :=
  let acc1 := if e.1 ∈ acc.1 then acc else (acc.1 ++ [e.1], acc.2)
  e.2.foldl
    (fun acc d =>
      let acc2 := if d ∈ acc.1 then acc else (acc.1 ++ [d], acc.2)
      (acc2.1, acc2.2 ++ [(d, e.1)]))
    acc1

/-- The Graphviz graph produced from the dependency graph: the list of
added nodes and the list of added directed edges, in emission order. -/
def renderGraph (g : Graph) : List String × List (String × String) :=
  g.foldl renderEntry ([], [])

/-! ## Claim theorems about the graph -/

/-- C2: no dangling edges — after construction, every package with a
recorded dependency list exists as a key, and every entry of that list
exists as a key of the final graph as well. -/
theorem no_dangling_edges (files : List (String × List String)) (P d : String)
    (l : List String)
    (hP : lookupG (buildGraph files) P = some l) (hd : d ∈ l) :
    containsKey (buildGraph files) P = true ∧ containsKey (buildGraph files) d = true := by
  constructor
  · unfold containsKey
    rw [hP]
    rfl
  · rw [containsKey_buildGraph]
    rw [lookupG_buildGraph] at hP
    by_cases hm : mentioned files P
    · rw [if_pos hm] at hP
      have hl : l = goSortCompact (depsOf files P) := by
        injection hP with h
        exact h.symm
      have hdl : d ∈ depsOf files P := (mem_goSortCompact d _).mp (hl ▸ hd)
      obtain ⟨f, hf, hfP, hdf⟩ := (mem_depsOf files P d).mp hdl
      exact ⟨f, hf, Or.inr hdf⟩
    · rw [if_neg hm] at hP
      exact absurd hP (by simp)

/-- Witness for `no_dangling_edges` at a concrete stream. -/
theorem no_dangling_edges_witness :
    lookupG (buildGraph [("root", ["fmt"])]) "root" = some ["fmt"] ∧
    "fmt" ∈ ["fmt"] ∧
    (containsKey (buildGraph [("root", ["fmt"])]) "root" = true ∧
      containsKey (buildGraph [("root", ["fmt"])]) "fmt" = true) :=
  ⟨by decide, by decide,
    no_dangling_edges [("root", ["fmt"])] "root" "fmt" ["fmt"] (by decide) (by decide)⟩

/-- C8: the Graph Builder is idempotent over its input stream — feeding a
stream twice yields the same node set (keys) and the same edge set
(membership of the recorded dependency lists) as feeding it once. -/
theorem builder_idempotent (s : List (String × List String)) :
    (∀ k, containsKey (buildGraph (s ++ s)) k = containsKey (buildGraph s) k) ∧
    (∀ P d,
      (∃ l, lookupG (buildGraph (s ++ s)) P = some l ∧ d ∈ l) ↔
      (∃ l, lookupG (buildGraph s) P = some l ∧ d ∈ l)) := by
  have hment : ∀ k, mentioned (s ++ s) k ↔ mentioned s k := by
    intro k
    rw [mentioned_append]
    tauto
  constructor
  · intro k
    unfold containsKey
    rw [lookupG_buildGraph, lookupG_buildGraph]
    by_cases h : mentioned s k
    · have h2 : mentioned (s ++ s) k := (hment k).mpr h
      simp [h, h2]
    · have h2 : ¬mentioned (s ++ s) k := fun hc => h ((hment k).mp hc)
      simp [h, h2]
  · intro P d
    rw [lookupG_buildGraph, lookupG_buildGraph]
    by_cases h : mentioned s P
    · have h2 : mentioned (s ++ s) P := (hment P).mpr h
      simp only [h, h2, if_true, if_pos]
      constructor
      · rintro ⟨l, hl, hd⟩
        refine ⟨goSortCompact (depsOf s P), rfl, ?_⟩
        rw [mem_goSortCompact]
        have hd' : d ∈ depsOf (s ++ s) P := by
          rw [← mem_goSortCompact d _]
          exact (Option.some.inj hl) ▸ hd
        rw [depsOf_append] at hd'
        rcases List.mem_append.mp hd' with h' | h' <;> exact h'
      · rintro ⟨l, hl, hd⟩
        refine ⟨goSortCompact (depsOf (s ++ s) P), rfl, ?_⟩
        rw [mem_goSortCompact, depsOf_append]
        have hd' : d ∈ depsOf s P := by
          rw [← mem_goSortCompact d _]
          exact (Option.some.inj hl) ▸ hd
        exact List.mem_append.mpr (Or.inl hd')
    · have h2 : ¬mentioned (s ++ s) P := fun hc => h ((hment P).mp hc)
      simp [h, h2]

/-- C1 fails on the code: `slices.Compact(deps)`'s return value is
discarded at src/main.go:150, so the slice stored in the map keeps its
original length.  For a file with imports `[a, a, b]`, the owning
package's recorded list after the final pass is `[a, b, b]`: `b` appears
twice, not exactly once. -/
theorem duplicate_imports_not_deduplicated :
    lookupG (buildGraph [("example.com/mod", ["a", "a", "b"])]) "example.com/mod"
      = some ["a", "b", "b"] ∧
    (["a", "b", "b"] : List String).count "b" = 2 := by
  constructor
  · decide
  · decide

/-- C4 fails on the code for the same reason: the rendering loop emits one
edge per entry of the stored list, and the stored list still contains a
leftover duplicate, so the pair (`b`, `example.com/mod`) receives two
edges instead of exactly one.  (Every emitted edge does point from
dependency to dependent.) -/
theorem duplicate_edge_rendered :
    (renderGraph (buildGraph [("example.com/mod", ["a", "a", "b"])])).2
      = [("a", "example.com/mod"), ("b", "example.com/mod"), ("b", "example.com/mod")] ∧
    ((renderGraph (buildGraph [("example.com/mod", ["a", "a", "b"])])).2).count
      ("b", "example.com/mod") = 2 := by
  constructor
  · decide
  · decide

/-! ## The module-identity walk (src/main.go:73-105)

The walk visits every file; for each path ending in `go.mod`
(`strings.HasSuffix`), the file is read and parsed with `modfile.Parse`:
a parse failure is `log.Fatalf` (src/main.go:93), a success stores the
module path in `moduleName` and the walk continues (`return nil`,
src/main.go:97).  `moduleName` starts as the zero value `""`
(src/main.go:73) and is never checked afterwards.  A file is embedded as
its path together with the module path `modfile.Parse` would return
(`none` = parse failure; the field is irrelevant for non-`go.mod` paths). -/

/-- `strings.HasSuffix s suffix`. -/
def goHasSuffix (s suffix : String) : Bool :=
  suffix.data.isSuffixOf s.data

/-- One file visit of the `go.mod` search walk. -/
def resolveStep (acc : Except Unit String) (f : String × Option String) : Except Unit String :=
  match acc with
  | .error e => .error e
  | .ok m =>
    if goHasSuffix f.1 "go.mod" then
      match f.2 with
      | none => .error ()
      | some name => .ok name
    else .ok m

/-- The whole `go.mod` search walk: `Except.error ()` is the
`log.Fatalf` exit on a `go.mod` parse failure, `Except.ok m` is reaching
src/main.go:107 with `moduleName = m`. -/
def resolveModule (files : List (String × Option String)) : Except Unit String :=
  files.foldl resolveStep (Except.ok "")

theorem foldl_resolveStep_error (files : List (String × Option String)) (e : Unit) :
    files.foldl resolveStep (Except.error e) = Except.error e := by
  induction files with
  | nil => rfl
  | cons f fs ih => simpa [resolveStep] using ih

theorem foldl_resolveStep_no_gomod (files : List (String × Option String)) (m : String)
    (h : ∀ f ∈ files, goHasSuffix f.1 "go.mod" = false) :
    files.foldl resolveStep (Except.ok m) = Except.ok m := by
  induction files generalizing m with
  | nil => rfl
  | cons f fs ih =>
    have hf : goHasSuffix f.1 "go.mod" = false := h f (List.mem_cons_self f fs)
    have hstep : resolveStep (Except.ok m) f = Except.ok m := by
      simp [resolveStep, hf]
    rw [List.foldl_cons, hstep]
    exact ih m (fun f' hf' => h f' (List.mem_cons_of_mem f hf'))

theorem foldl_resolveStep_bad_gomod (files : List (String × Option String)) :
    ∀ acc : Except Unit String,
      (∃ f ∈ files, goHasSuffix f.1 "go.mod" = true ∧ f.2 = none) →
      files.foldl resolveStep acc = Except.error () := by
  induction files with
  | nil =>
    intro acc h
    simp at h
  | cons f fs ih =>
    intro acc h
    rw [List.foldl_cons]
    by_cases hf : goHasSuffix f.1 "go.mod" = true ∧ f.2 = none
    · have hstep : resolveStep acc f = Except.error () := by
        obtain ⟨h1, h2⟩ := hf
        cases acc with
        | error e => cases e; rfl
        | ok m => simp [resolveStep, h1, h2]
      rw [hstep, foldl_resolveStep_error]
    · obtain ⟨f0, hf0, hcond⟩ := h
      rcases List.mem_cons.mp hf0 with rfl | hmem
      · exact absurd hcond hf
      · exact ih (resolveStep acc f) ⟨f0, hmem, hcond⟩

/-- C5 counterexample: on a tree with no `go.mod` at all, the walk
finishes without error and the run continues with the empty module root —
the claimed fatal termination does not happen. -/
theorem missing_gomod_not_fatal :
    resolveModule [("main.go", (none : Option String))] = Except.ok "" := by
  rfl

/-- C5 amended: a `go.mod` that fails to parse is fatal
(src/main.go:93), but when no file path ends in `go.mod` the walk
completes without error and the run continues with the empty module
root `""`. -/
theorem resolveModule_fatal_only_on_parse_failure (files : List (String × Option String)) :
    ((∃ f ∈ files, goHasSuffix f.1 "go.mod" = true ∧ f.2 = none) →
      resolveModule files = Except.error ()) ∧
    ((∀ f ∈ files, goHasSuffix f.1 "go.mod" = false) →
      resolveModule files = Except.ok "") := by
  constructor
  · intro h
    exact foldl_resolveStep_bad_gomod files (Except.ok "") h
  · intro h
    exact foldl_resolveStep_no_gomod files "" h

/-- Witness for `resolveModule_fatal_only_on_parse_failure` at concrete
file lists. -/
theorem resolveModule_fatal_only_on_parse_failure_witness :
    resolveModule [("go.mod", (none : Option String))] = Except.error () ∧
    resolveModule [("main.go", (some "m" : Option String))] = Except.ok "" :=
  ⟨(resolveModule_fatal_only_on_parse_failure [("go.mod", none)]).1
      ⟨("go.mod", none), List.mem_singleton.mpr rfl, by decide, rfl⟩,
    (resolveModule_fatal_only_on_parse_failure [("main.go", some "m")]).2
      (by
        intro f hf
        rcases List.mem_singleton.mp hf with rfl
        decide)⟩

/-! ## The source-file walk (src/main.go:109-151)

Every file whose `filepath.Ext` is `.go` is parsed
(`parser.ParseFile … parser.ImportsOnly`); a parse failure is
`log.Fatalf` (src/main.go:129).  A file is embedded as its path together
with the import list the parser would return (`none` = parse failure). -/

/-- `filepath.Ext p`: the suffix starting at the final dot of the final
path element; empty when that element has no dot. -/
def goExt (p : String) : String :=
  let r := p.data.reverse
  match r.dropWhile (fun c => c != '.' && c != '/') with
  | '.' :: _ => ⟨'.' :: (r.takeWhile (fun c => c != '.' && c != '/')).reverse⟩
  | _ => ""

/-- One file visit of the graph-building walk (src/main.go:114-139):
skip non-`.go` files; otherwise derive the package name, ensure its key,
then either die on a parse failure or run the import loop. -/
def processSourceFile (modName : String) (g : Graph) (f : String × Option (List String)) :
    Except Unit Graph :=
  if goExt f.1 = ".go" then
    let name := getPackageName modName f.1
    let g1 := ensure g name
    match f.2 with
    | none => Except.error ()
    | some imports => Except.ok (imports.foldl (processImport name) g1)
  else Except.ok g

/-- The graph-building walk followed by the final sort-and-compact pass:
`Except.error ()` is the `log.Fatalf` exit at src/main.go:129. -/
def runBuild (modName : String) (files : List (String × Option (List String))) :
    Except Unit Graph :=
  (List.foldlM (processSourceFile modName) [] files).map finalPass

theorem foldlM_processSourceFile_error (modName : String)
    (files : List (String × Option (List String))) :
    ∀ g : Graph, (∃ f ∈ files, goExt f.1 = ".go" ∧ f.2 = none) →
      List.foldlM (processSourceFile modName) g files = Except.error () := by
  induction files with
  | nil =>
    intro g h
    simp at h
  | cons f fs ih =>
    intro g h
    rw [List.foldlM_cons]
    by_cases hf : goExt f.1 = ".go" ∧ f.2 = none
    · have hstep : processSourceFile modName g f = Except.error () := by
        obtain ⟨h1, h2⟩ := hf
        simp [processSourceFile, h1, h2]
      rw [hstep]
      rfl
    · obtain ⟨f0, hf0, hcond⟩ := h
      rcases List.mem_cons.mp hf0 with rfl | hmem
      · exact absurd hcond hf
      · cases hstep : processSourceFile modName g f with
        | error e =>
          cases e
          rfl
        | ok g' =>
          exact ih g' ⟨f0, hmem, hcond⟩

/-- C7: a `.go` file whose import section cannot be parsed makes the
whole walk fatal (src/main.go:127-130): the run exits instead of
skipping the file and building the graph from the rest. -/
theorem parse_failure_fatal (modName : String)
    (files : List (String × Option (List String)))
    (h : ∃ f ∈ files, goExt f.1 = ".go" ∧ f.2 = none) :
    runBuild modName files = Except.error () := by
  unfold runBuild
  rw [foldlM_processSourceFile_error modName files [] h]
  rfl

/-- Witness for `parse_failure_fatal`: a stream holding a good file and a
malformed one still dies. -/
theorem parse_failure_fatal_witness :
    runBuild "root" [("main.go", (some ["fmt"] : Option (List String))),
                     ("broken.go", (none : Option (List String)))] = Except.error () :=
  parse_failure_fatal "root" _
    ⟨("broken.go", none), by simp, by decide, rfl⟩

/-! ### The walk agrees with the Graph Builder on fully parsed trees -/

/-- The (packageNode, imports) stream a file tree induces. -/
def importStream (modName : String) (files : List (String × Option (List String))) :
    List (String × List String) :=
  files.filterMap (fun f =>
    if goExt f.1 = ".go" then f.2.map (fun imps => (getPackageName modName f.1, imps))
    else none)

theorem foldlM_processSourceFile_ok (modName : String)
    (files : List (String × Option (List String))) :
    ∀ g : Graph, (∀ f ∈ files, goExt f.1 = ".go" → f.2 ≠ none) →
      List.foldlM (processSourceFile modName) g files
        = Except.ok ((importStream modName files).foldl processFile g) := by
  induction files with
  | nil =>
    intro g _
    rfl
  | cons f fs ih =>
    intro g h
    rw [List.foldlM_cons]
    by_cases hgo : goExt f.1 = ".go"
    · cases hp : f.2 with
      | none => exact absurd hp (h f (List.mem_cons_self f fs) hgo)
      | some imports =>
        have hstep : processSourceFile modName g f
            = Except.ok (processFile g (getPackageName modName f.1, imports)) := by
          simp [processSourceFile, hgo, hp, processFile]
        rw [hstep]
        have hstream : importStream modName (f :: fs)
            = (getPackageName modName f.1, imports) :: importStream modName fs := by
          simp [importStream, hgo, hp]
        rw [hstream, List.foldl_cons]
        exact ih _ (fun f' hf' => h f' (List.mem_cons_of_mem f hf'))
    · have hstep : processSourceFile modName g f = Except.ok g := by
        simp [processSourceFile, hgo]
      rw [hstep]
      have hstream : importStream modName (f :: fs) = importStream modName fs := by
        simp [importStream, hgo]
      rw [hstream]
      exact ih g (fun f' hf' => h f' (List.mem_cons_of_mem f hf'))

theorem runBuild_eq_buildGraph (modName : String)
    (files : List (String × Option (List String)))
    (h : ∀ f ∈ files, goExt f.1 = ".go" → f.2 ≠ none) :
    runBuild modName files = Except.ok (buildGraph (importStream modName files)) := by
  unfold runBuild buildGraph
  rw [foldlM_processSourceFile_ok modName files [] h]
  rfl

/-- The spec's end-to-end scenario: module root `root`, `main.go`
(package `root`) importing `fmt`, `sub/a.go` (package `root/sub`)
importing `root` and `fmt`.  The rendered graph has nodes
`{root, fmt, root/sub}` and exactly the dependency→dependent edges
`fmt→root`, `fmt→root/sub`, `root→root/sub`. -/
theorem end_to_end_scenario :
    renderGraph (buildGraph
        [("root", ["fmt"]), ("root/sub", ["root", "fmt"])])
      = (["root", "fmt", "root/sub"],
         [("fmt", "root"), ("fmt", "root/sub"), ("root", "root/sub")]) ∧
    importStream "root" [("main.go", some ["fmt"]), ("sub/a.go", some ["root", "fmt"])]
      = [("root", ["fmt"]), ("root/sub", ["root", "fmt"])] := by
  constructor
  · decide
  · decide

end GoDepVisual
